import Mathlib

/-!
Verification of the FluxDM chunked download engine
(crates/engine/src/chunked.rs and crates/engine/src/http.rs).

The Rust code is shallowly embedded: u64 values become Nat, and the
arithmetic operations that Rust checks for overflow (subtraction,
addition, multiplication, power, division by zero) become Option-valued
checked operations; a `none` models the arithmetic panic that the code
hits on such inputs when compiled with overflow checks (the mode used by
the test suite).  Network and filesystem effects are passed in
explicitly: an HTTP HEAD response is a record, the metadata call of
detect_resume is an `Except` of an I/O error kind or a file length, and
each GET attempt of a chunk download is described by an `AttemptSpec`
record (status, received body blocks, optional mid-stream failure).
-/

/-- Checked u64 addition: Rust panics when the sum leaves the u64 range. -/
def checkedAdd (a b : Nat) : Option Nat :=
  if a + b < 2 ^ 64 then some (a + b) else none

/-- Checked u64 subtraction: Rust panics on underflow. -/
def checkedSub (a b : Nat) : Option Nat :=
  if b ≤ a then some (a - b) else none

/-- Checked u64 division: Rust panics on division by zero. -/
def checkedDiv (a b : Nat) : Option Nat :=
  if b = 0 then none else some (a / b)

/-- Checked u64 multiplication: Rust panics when the product leaves u64. -/
def checkedMul (a b : Nat) : Option Nat :=
  if a * b < 2 ^ 64 then some (a * b) else none

/-- Checked 2u64.pow e. -/
def checkedPow2 (e : Nat) : Option Nat :=
  if 2 ^ e < 2 ^ 64 then some (2 ^ e) else none

/-- ChunkConfig from chunked.rs (chunk_count: u8, min_chunk_size: u64,
max_retries: u32, retry_delay_ms: u64, exponential_backoff: bool). -/
structure ChunkConfig where
  chunk_count : Nat
  min_chunk_size : Nat
  max_retries : Nat
  retry_delay_ms : Nat
  exponential_backoff : Bool
deriving DecidableEq

/-- Chunk from chunked.rs.  The source field named end is renamed endPos
because end is a Lean keyword. -/
structure Chunk where
  index : Nat
  start : Nat
  endPos : Nat
  downloaded : Nat
deriving DecidableEq

/-- Chunk.size: self.end - self.start + 1. -/
def Chunk.size (c : Chunk) : Nat :=
  c.endPos - c.start + 1

/-- Chunk.remaining: self.size() - self.downloaded. -/
def Chunk.remaining (c : Chunk) : Nat :=
  c.size - c.downloaded

/-- Chunk.is_complete: self.downloaded >= self.size(). -/
def Chunk.is_complete (c : Chunk) : Bool :=
  decide (c.size ≤ c.downloaded)

/-- Chunk.resume_position: self.start + self.downloaded. -/
def Chunk.resume_position (c : Chunk) : Nat :=
  c.start + c.downloaded

/-- DownloadError from http.rs: the full error enum of the engine. -/
inductive DownloadError where
  | NetworkError : String → DownloadError
  | HttpError : Nat → DownloadError
  | FileError : String → DownloadError
  | InvalidUrl : String → DownloadError
deriving DecidableEq

/-- Modelled from the spec: the section 7 error taxonomy (Network,
HttpStatus, MissingContentLength, UnexpectedFullResponse, File,
InvalidUrl, Internal).  Used only to compare the error kinds the spec
names with the error kinds the implementation can actually produce. -/
inductive SpecErrorKind where
  | network
  | httpStatus
  | missingContentLength
  | unexpectedFullResponse
  | file
  | invalidUrl
  | internal
deriving DecidableEq

/-- The spec kind of each implemented DownloadError constructor, by the
correspondence stated in section 7 of the spec. -/
def specKindOf : DownloadError → SpecErrorKind
  | .NetworkError _ => .network
  | .HttpError _ => .httpStatus
  | .FileError _ => .file
  | .InvalidUrl _ => .invalidUrl

/-- The spec kind of the error of a fallible result, if it is an error. -/
def errorKindOf {α : Type} : Except DownloadError α → Option SpecErrorKind
  | .error e => some (specKindOf e)
  | .ok _ => none

/-- Error kinds of tokio fs metadata, to state that detect_resume treats
every kind alike. -/
inductive IoErrorKind where
  | notFound
  | permissionDenied
  | otherIo
deriving DecidableEq

/-- An HTTP HEAD response as get_file_info reads it: the status code,
the optional content length and the optional Accept-Ranges header. -/
structure HeadResponse where
  status : Nat
  contentLength : Option Nat
  acceptRanges : Option String

/-- reqwest StatusCode.is_success: 200 <= code <= 299. -/
def isSuccessStatus (s : Nat) : Bool :=
  decide (200 ≤ s ∧ s ≤ 299)

/-- get_file_info from chunked.rs, as a function of the HEAD response:
non-2xx status gives HttpError, an absent content length gives
InvalidUrl "No content length", otherwise the length and whether the
Accept-Ranges header equals bytes. -/
def get_file_info (r : HeadResponse) : Except DownloadError (Nat × Bool) :=
  if isSuccessStatus r.status = false then .error (.HttpError r.status)
  else
    match r.contentLength with
    | none => .error (.InvalidUrl ("No content length"))
    | some len => .ok (len, decide (r.acceptRanges = some ("bytes")))

/-- The loop for i in 0..n of calculate_chunks, translated structurally:
k counts the remaining iterations (k + i = n at every call), i is the
loop index and start the running start position.  A non-last chunk ends
at start + chunk_size - 1, the last chunk ends at file_size - 1, and
start advances to end + 1. -/
def chunkLoop (n q total : Nat) : Nat → Nat → Nat → Option (List Chunk)
  | 0, _, _ => some []
  | k + 1, i, start =>
    (if i = n - 1 then checkedSub total 1
     else (checkedAdd start q).bind (fun s => checkedSub s 1)).bind
      (fun e =>
        (chunkLoop n q total k (i + 1) (e + 1)).map
          (fun rest => ⟨i, start, e, 0⟩ :: rest))

/-- calculate_chunks from chunked.rs: a file smaller than min_chunk_size
gives the single chunk [0, file_size - 1]; otherwise chunk_size =
file_size / chunk_count and the loop builds chunk_count chunks. -/
def calculate_chunks (cfg : ChunkConfig) (file_size : Nat) : Option (List Chunk) :=
  if file_size < cfg.min_chunk_size then
    (checkedSub file_size 1).map (fun e => [⟨0, 0, e, 0⟩])
  else
    (checkedDiv file_size cfg.chunk_count).bind
      (fun q => chunkLoop cfg.chunk_count q file_size cfg.chunk_count 0 0)

/-- The distribution loop of detect_resume: walk the chunks in order
with the remaining byte count; a chunk wholly covered is marked fully
downloaded, the first partially covered chunk receives the rest (and the
walk goes on with remaining = 0, exactly as the source does), and the
first chunk reached with nothing remaining stops the walk, leaving every
later chunk untouched. -/
def distribute : Nat → List Chunk → List Chunk
  | _, [] => []
  | remaining, c :: cs =>
    if c.size ≤ remaining then
      { c with downloaded := c.size } :: distribute (remaining - c.size) cs
    else if 0 < remaining then
      { c with downloaded := remaining } :: distribute 0 cs
    else
      c :: cs

/-- detect_resume from chunked.rs, as a function of the metadata result
for the destination path (error kind or existing file length): compute
the fresh partition, return it unchanged on any metadata error, mark
everything downloaded when the existing length reaches file_size, and
otherwise distribute the existing length greedily. -/
def detect_resume (cfg : ChunkConfig) (md : Except IoErrorKind Nat)
    (file_size : Nat) : Option (Except DownloadError (List Chunk)) :=
  (calculate_chunks cfg file_size).map
    (fun chunks =>
      match md with
      | .error _ => .ok chunks
      | .ok existing =>
        if file_size ≤ existing then
          .ok (chunks.map (fun c => { c with downloaded := c.size }))
        else
          .ok (distribute existing chunks))

/-- One GET attempt of download_chunk as the network delivers it: the
response status, the sizes of the body blocks received before the stream
ends, and an optional mid-stream failure message after those blocks. -/
structure AttemptSpec where
  status : Nat
  blocks : List Nat
  streamErr : Option String

/-- The status acceptance test of download_chunk, from the line
if !response.status().is_success() && response.status().as_u16() != 206:
the attempt proceeds iff the status is 2xx or equals 206. -/
def statusAccepted (s : Nat) : Bool :=
  isSuccessStatus s || decide (s = 206)

/-- The Range request of one attempt: bytes=resume_position-end. -/
def chunkRequest (c : Chunk) : Nat × Nat :=
  (c.resume_position, c.endPos)

/-- download_chunk from chunked.rs as a function of the chunk and the
attempt: a complete chunk returns 0 at once; a rejected status returns
HttpError; a mid-stream failure returns NetworkError; otherwise the sum
of the received block sizes is returned. -/
def download_chunk (c : Chunk) (a : AttemptSpec) : Except DownloadError Nat :=
  if c.is_complete then .ok 0
  else if statusAccepted a.status = false then .error (.HttpError a.status)
  else
    match a.streamErr with
    | some m => .error (.NetworkError m)
    | none => .ok a.blocks.sum

/-- The file writes of the streaming loop: starting at p, each block of
size b is written at the current position, which then advances by b. -/
def writesFrom : Nat → List Nat → List (Nat × Nat)
  | _, [] => []
  | p, b :: bs => (p, b) :: writesFrom (p + b) bs

/-- The (offset, length) writes that one download_chunk attempt performs
on the destination file: nothing for a complete chunk or a rejected
status; otherwise the received blocks are written in order starting at
the absolute offset resume_position (this includes the blocks received
before a mid-stream failure, which the source has already written when
the failure surfaces). -/
def chunkWrites (c : Chunk) (a : AttemptSpec) : List (Nat × Nat) :=
  if c.is_complete then []
  else if statusAccepted a.status = false then []
  else writesFrom c.resume_position a.blocks

/-- The backoff delay computed before the attempt-th retry (attempt has
already been incremented, so the first retry uses attempt = 1):
retry_delay_ms * 2u64.pow(attempt - 1) in exponential mode, checked as
the u64 operations are, else retry_delay_ms. -/
def delayFor (cfg : ChunkConfig) (attempt : Nat) : Option Nat :=
  if cfg.exponential_backoff then
    (checkedPow2 (attempt - 1)).bind (fun p => checkedMul cfg.retry_delay_ms p)
  else
    some cfg.retry_delay_ms

/-- The observable history of one download_chunk_with_retry run: the
Range request of each attempt in order, the backoff delay computed
before each retry in order (none modelling an arithmetic panic in the
delay computation), and the returned result. -/
structure RetryTrace where
  requests : List (Nat × Nat)
  delays : List (Option Nat)
  result : Except DownloadError Nat

/-- The retry loop of download_chunk_with_retry.  The chunk is passed by
value (Chunk is Copy in the source), so every attempt sees the same
chunk.  env gives the network behaviour of each attempt; fuel bounds the
recursion and equals max_retries + 1 - attempt at every reachable call,
so the fuel-exhausted arm (mirroring the unwrap_or_else fallback of the
source) is never taken from the entry point. -/
def retryGo (cfg : ChunkConfig) (c : Chunk) (env : Nat → AttemptSpec) :
    Nat → Nat → RetryTrace
  | _, 0 => ⟨[], [], .error (.NetworkError ("Unknown error during retry"))⟩
  | attempt, fuel + 1 =>
    let reqs := if c.is_complete then [] else [chunkRequest c]
    match download_chunk c (env attempt) with
    | .ok b => ⟨reqs, [], .ok b⟩
    | .error e =>
      if cfg.max_retries < attempt + 1 then ⟨reqs, [], .error e⟩
      else
        let rest := retryGo cfg c env (attempt + 1) fuel
        ⟨reqs ++ rest.requests, delayFor cfg (attempt + 1) :: rest.delays,
          rest.result⟩

/-- download_chunk_with_retry from chunked.rs: run the loop from
attempt 0 with enough fuel for the max_retries + 1 possible attempts. -/
def download_chunk_with_retry (cfg : ChunkConfig) (c : Chunk)
    (env : Nat → AttemptSpec) : RetryTrace :=
  retryGo cfg c env 0 (cfg.max_retries + 1)

/-- A chunk list covers the byte interval [s, total - 1] contiguously:
each chunk starts where told, is nonempty, stays inside the file, and
hands the next chunk the position after its end; an empty list is only
allowed once the whole file is covered. -/
def chunkChain (total : Nat) : Nat → List Chunk → Prop
  | s, [] => s = total
  | s, c :: rest =>
    c.start = s ∧ c.start ≤ c.endPos ∧ c.endPos + 1 ≤ total ∧
      chunkChain total (c.endPos + 1) rest

/-- The prefix shape of a resumed chunk list: every chunk before index k
is complete, the chunk at index k (if any) is at most partially filled,
and every chunk after index k has downloaded = 0. -/
def prefixShapeAt (cs : List Chunk) (k : Nat) : Prop :=
  ∀ i (h : i < cs.length),
    (i < k → (cs.get ⟨i, h⟩).is_complete = true) ∧
    (i = k → (cs.get ⟨i, h⟩).downloaded ≤ (cs.get ⟨i, h⟩).size) ∧
    (k < i → (cs.get ⟨i, h⟩).downloaded = 0)

/-- A four-chunk configuration used for concrete witnesses. -/
def cfgFour : ChunkConfig := ⟨4, 100, 3, 1000, true⟩

/-- The default configuration of the source (8 chunks, 1 MiB minimum,
3 retries, 1000 ms initial delay, exponential backoff). -/
def cfgDefault : ChunkConfig := ⟨8, 1048576, 3, 1000, true⟩

/-- The fresh partition of a 1000-byte file into four chunks. -/
def csFresh1000 : List Chunk :=
  [⟨0, 0, 249, 0⟩, ⟨1, 250, 499, 0⟩, ⟨2, 500, 749, 0⟩, ⟨3, 750, 999, 0⟩]

/-- The same partition fully downloaded. -/
def csFull1000 : List Chunk :=
  [⟨0, 0, 249, 250⟩, ⟨1, 250, 499, 250⟩, ⟨2, 500, 749, 250⟩, ⟨3, 750, 999, 250⟩]

/-- The same partition after resuming from a 300-byte partial file. -/
def csPart1000 : List Chunk :=
  [⟨0, 0, 249, 250⟩, ⟨1, 250, 499, 50⟩, ⟨2, 500, 749, 0⟩, ⟨3, 750, 999, 0⟩]

/-- A network environment whose first attempt delivers 50 bytes and then
fails mid-stream, and whose later attempts succeed with 100 bytes. -/
def envRetry : Nat → AttemptSpec :=
  fun a => if a = 0 then ⟨206, [50], some ("reset")⟩ else ⟨206, [100], none⟩

/-- Introduction form of checkedSub. -/
theorem checkedSub_some (a b : Nat) (h : b ≤ a) : checkedSub a b = some (a - b) := by
  simp [checkedSub, h]

/-- Inversion of checkedSub. -/
theorem checkedSub_eq_some (a b e : Nat) (h : checkedSub a b = some e) :
    b ≤ a ∧ e = a - b := by
  by_cases hb : b ≤ a
  · refine ⟨hb, ?_⟩
    simp [checkedSub, hb] at h
    omega
  · simp [checkedSub, hb] at h

/-- Introduction form of checkedAdd. -/
theorem checkedAdd_some (a b : Nat) (h : a + b < 2 ^ 64) :
    checkedAdd a b = some (a + b) := by
  rw [checkedAdd, if_pos h]

/-- Inversion of checkedDiv. -/
theorem checkedDiv_eq_some (a b q : Nat) (h : checkedDiv a b = some q) :
    b ≠ 0 ∧ q = a / b := by
  by_cases hb : b = 0
  · simp [checkedDiv, hb] at h
  · simp [checkedDiv, hb] at h
    exact ⟨hb, h.symm⟩

/-- A chain over [s, total - 1] has sizes summing to total - s. -/
theorem chunkChain_sum (total : Nat) :
    ∀ (cs : List Chunk) (s : Nat), chunkChain total s cs →
      ((cs.map Chunk.size).sum = total - s ∧ s ≤ total) := by
  intro cs
  induction cs with
  | nil =>
    intro s hc
    simp [chunkChain] at hc
    simp [hc]
  | cons c rest ih =>
    intro s hc
    obtain ⟨hs, hse, het, hrest⟩ := hc
    obtain ⟨hsum, hle⟩ := ih (c.endPos + 1) hrest
    constructor
    · simp [List.map_cons, List.sum_cons, hsum, Chunk.size]
      omega
    · omega

/-- The last chunk of a chain ends at total - 1. -/
theorem chunkChain_getLast (total : Nat) :
    ∀ (cs : List Chunk) (s : Nat), chunkChain total s cs →
      ∀ (h : cs ≠ []), (cs.getLast h).endPos = total - 1 := by
  intro cs
  induction cs with
  | nil => intro s _ h; exact absurd rfl h
  | cons c rest ih =>
    intro s hc h
    obtain ⟨hs, hse, het, hrest⟩ := hc
    cases rest with
    | nil =>
      simp [chunkChain] at hrest
      simp [List.getLast]
      omega
    | cons c2 rest2 =>
      rw [List.getLast_cons (by simp)]
      exact ih (c.endPos + 1) hrest (by simp)

/-- Adjacent chunks of a chain are contiguous. -/
theorem chunkChain_adjacent (total : Nat) :
    ∀ (cs : List Chunk) (s : Nat), chunkChain total s cs →
      ∀ i (h : i + 1 < cs.length),
        (cs.get ⟨i, by omega⟩).endPos + 1 = (cs.get ⟨i + 1, h⟩).start := by
  intro cs
  induction cs with
  | nil => intro s _ i h; simp at h
  | cons c rest ih =>
    intro s hc i h
    obtain ⟨hs, hse, het, hrest⟩ := hc
    cases i with
    | zero =>
      cases rest with
      | nil => simp at h
      | cons c2 rest2 =>
        simp [List.get]
        exact hrest.1.symm
    | succ j =>
      simp only [List.length_cons] at h
      have hj : j + 1 < rest.length := by omega
      have := ih (c.endPos + 1) hrest j hj
      simpa [List.get] using this

/-- Every chunk the partition loop builds has downloaded = 0. -/
theorem chunkLoop_all_zero (n q total : Nat) :
    ∀ k i start cs, chunkLoop n q total k i start = some cs →
      ∀ c ∈ cs, c.downloaded = 0 := by
  intro k
  induction k with
  | zero =>
    intro i start cs h c hc
    simp only [chunkLoop] at h
    cases h
    simp at hc
  | succ m ih =>
    intro i start cs h c hc
    simp only [chunkLoop] at h
    rw [Option.bind_eq_some] at h
    obtain ⟨e, _, h2⟩ := h
    rw [Option.map_eq_some'] at h2
    obtain ⟨rest, hrest, hcs⟩ := h2
    subst hcs
    rcases List.mem_cons.mp hc with hc | hc
    · subst hc; rfl
    · exact ih (i + 1) (e + 1) rest hrest c hc

/-- When the per-chunk quotient q is at least 1, n chunks of q bytes fit
into total, and total is a u64 value, the partition loop started at
index i with start = i * q succeeds and builds a contiguous chain that
covers [i * q, total - 1]. -/
theorem chunkLoop_chain (n q total : Nat) (hq : 1 ≤ q) (hnq : n * q ≤ total)
    (h64 : total < 2 ^ 64) :
    ∀ k i, i + k = n → 1 ≤ k →
      ∃ cs, chunkLoop n q total k i (i * q) = some cs ∧
        chunkChain total (i * q) cs := by
  intro k
  induction k with
  | zero => intro i _ h1; omega
  | succ m ih =>
    intro i hin _
    have htot1 : 1 ≤ total := by
      have := Nat.mul_pos (show 0 < n by omega) hq
      omega
    by_cases hlast : i = n - 1
    · have hm : m = 0 := by omega
      subst hm
      have hix : i + 1 = n := by omega
      have hkey : i * q + q ≤ total := by
        have h2 := hnq
        rw [← hix, Nat.succ_mul] at h2
        exact h2
      refine ⟨[⟨i, i * q, total - 1, 0⟩], ?_, ?_⟩
      · simp only [chunkLoop, if_pos hlast,
          checkedSub_some total 1 htot1, Option.some_bind, Option.map_some']
      · refine ⟨rfl, ?_, ?_, ?_⟩
        · show i * q ≤ total - 1
          omega
        · show total - 1 + 1 ≤ total
          omega
        · show chunkChain total (total - 1 + 1) []
          simp only [chunkChain]
          omega
    · have hix : i + 1 < n := by omega
      have hm1 : 1 ≤ m := by omega
      have hkey : i * q + q ≤ total := by
        have h2 : (i + 1) * q ≤ n * q := Nat.mul_le_mul_right q (by omega)
        rw [Nat.succ_mul] at h2
        omega
      obtain ⟨cs, hcs, hchain⟩ := ih (i + 1) (by omega) hm1
      refine ⟨⟨i, i * q, i * q + q - 1, 0⟩ :: cs, ?_, ?_⟩
      · simp only [chunkLoop, if_neg hlast,
          checkedAdd_some (i * q) q (by omega),
          checkedSub_some (i * q + q) 1 (by omega), Option.some_bind]
        have hse : i * q + q - 1 + 1 = (i + 1) * q := by
          rw [Nat.succ_mul]; omega
        rw [hse, hcs, Option.map_some']
      · refine ⟨rfl, ?_, ?_, ?_⟩
        · show i * q ≤ i * q + q - 1
          omega
        · show i * q + q - 1 + 1 ≤ total
          omega
        · show chunkChain total (i * q + q - 1 + 1) cs
          have hse : i * q + q - 1 + 1 = (i + 1) * q := by
            rw [Nat.succ_mul]; omega
          rw [hse]
          exact hchain

/-- Every chunk of a fresh partition has downloaded = 0. -/
theorem calculate_chunks_all_zero (cfg : ChunkConfig) (total : Nat)
    (cs : List Chunk) (h : calculate_chunks cfg total = some cs) :
    ∀ c ∈ cs, c.downloaded = 0 := by
  intro c hc
  rw [calculate_chunks] at h
  split at h
  · rw [Option.map_eq_some'] at h
    obtain ⟨e, _, hcs⟩ := h
    subst hcs
    simp at hc
    subst hc
    rfl
  · rw [Option.bind_eq_some] at h
    obtain ⟨q, _, h2⟩ := h
    exact chunkLoop_all_zero cfg.chunk_count q total cfg.chunk_count 0 0 cs h2 c hc

/-- A successful partition of a u64-sized file is a contiguous chain
covering [0, total - 1]. -/
theorem calculate_chunks_chain (cfg : ChunkConfig) (total : Nat)
    (cs : List Chunk) (h64 : total < 2 ^ 64)
    (h : calculate_chunks cfg total = some cs) :
    chunkChain total 0 cs := by
  rw [calculate_chunks] at h
  split at h
  · rw [Option.map_eq_some'] at h
    obtain ⟨e, he, hcs⟩ := h
    obtain ⟨h1, he⟩ := checkedSub_eq_some total 1 e he
    subst hcs
    subst he
    refine ⟨rfl, ?_, ?_, ?_⟩
    · show (0 : Nat) ≤ total - 1
      omega
    · show total - 1 + 1 ≤ total
      omega
    · show chunkChain total (total - 1 + 1) []
      simp only [chunkChain]
      omega
  · rw [Option.bind_eq_some] at h
    obtain ⟨q, hq, h2⟩ := h
    obtain ⟨hn0, hqv⟩ := checkedDiv_eq_some total cfg.chunk_count q hq
    by_cases hq1 : 1 ≤ q
    · have hnq : cfg.chunk_count * q ≤ total := by
        subst hqv
        calc cfg.chunk_count * (total / cfg.chunk_count)
            = total / cfg.chunk_count * cfg.chunk_count := Nat.mul_comm _ _
          _ ≤ total := Nat.div_mul_le_self total cfg.chunk_count
      obtain ⟨cs2, heq, hchain⟩ :=
        chunkLoop_chain cfg.chunk_count q total hq1 hnq h64 cfg.chunk_count 0
          (by omega) (by omega)
      rw [Nat.zero_mul] at heq hchain
      rw [heq] at h2
      cases h2
      exact hchain
    · exfalso
      have hq0 : q = 0 := by omega
      subst hq0
      obtain ⟨m, hm⟩ := Nat.exists_eq_succ_of_ne_zero hn0
      rw [hm] at h2
      cases m with
      | zero =>
        have ht0 : total = 0 := by
          have h3 := hqv.symm
          rw [hm, Nat.div_one] at h3
          omega
        simp only [chunkLoop, ht0] at h2
        simp [checkedSub] at h2
      | succ m2 =>
        simp only [chunkLoop] at h2
        rw [if_neg (by omega)] at h2
        rw [checkedAdd_some 0 0 (by decide)] at h2
        simp [checkedSub] at h2

/-- The sizes of a successful partition sum to the file size. -/
theorem calculate_chunks_sum (cfg : ChunkConfig) (total : Nat)
    (cs : List Chunk) (h64 : total < 2 ^ 64)
    (h : calculate_chunks cfg total = some cs) :
    (cs.map Chunk.size).sum = total := by
  have := (chunkChain_sum total cs 0 (calculate_chunks_chain cfg total cs h64 h)).1
  omega

/-- When 1 <= chunk_count <= total and min_chunk_size <= total < 2 ^ 64,
the partition succeeds and is a chain covering [0, total - 1]. -/
theorem calculate_chunks_intro (cfg : ChunkConfig) (total : Nat)
    (hmin : cfg.min_chunk_size ≤ total) (hn : 1 ≤ cfg.chunk_count)
    (hcnt : cfg.chunk_count ≤ total) (h64 : total < 2 ^ 64) :
    ∃ cs, calculate_chunks cfg total = some cs ∧ chunkChain total 0 cs := by
  have hq1 : 1 ≤ total / cfg.chunk_count :=
    (Nat.one_le_div_iff (by omega)).mpr hcnt
  have hnq : cfg.chunk_count * (total / cfg.chunk_count) ≤ total :=
    calc cfg.chunk_count * (total / cfg.chunk_count)
        = total / cfg.chunk_count * cfg.chunk_count := Nat.mul_comm _ _
      _ ≤ total := Nat.div_mul_le_self total cfg.chunk_count
  obtain ⟨cs, heq, hchain⟩ :=
    chunkLoop_chain cfg.chunk_count (total / cfg.chunk_count) total hq1 hnq h64
      cfg.chunk_count 0 (by omega) (by omega)
  rw [Nat.zero_mul] at heq hchain
  refine ⟨cs, ?_, hchain⟩
  rw [calculate_chunks, if_neg (by omega)]
  rw [show checkedDiv total cfg.chunk_count = some (total / cfg.chunk_count) by
    simp [checkedDiv]; omega]
  rw [Option.some_bind]
  exact heq

/-- Distributing r bytes over all-zero chunks assigns min(r, capacity)
bytes in total. -/
theorem distribute_sum :
    ∀ (cs : List Chunk) (r : Nat), (∀ c ∈ cs, c.downloaded = 0) →
      ((distribute r cs).map Chunk.downloaded).sum =
        min r ((cs.map Chunk.size).sum) := by
  intro cs
  induction cs with
  | nil => intro r _; simp [distribute]
  | cons c cs ih =>
    intro r h
    have hc0 : c.downloaded = 0 := h c (by simp)
    have htail : ∀ x ∈ cs, x.downloaded = 0 := fun x hx => h x (by simp [hx])
    by_cases h1 : c.size ≤ r
    · simp only [distribute, if_pos h1, List.map_cons, List.sum_cons]
      rw [ih (r - c.size) htail]
      omega
    · by_cases h2 : 0 < r
      · simp only [distribute, if_neg h1, if_pos h2, List.map_cons,
          List.sum_cons]
        rw [ih 0 htail]
        omega
      · simp only [distribute, if_neg h1, if_neg h2, List.map_cons,
          List.sum_cons]
        have hz : (cs.map Chunk.downloaded).sum = 0 :=
          List.sum_eq_zero (by
            intro x hx
            obtain ⟨y, hy, hxy⟩ := List.mem_map.mp hx
            rw [← hxy]
            exact htail y hy)
        omega

/-- Distributing zero bytes leaves an all-zero chunk list all zero. -/
theorem distribute_zero_all_zero :
    ∀ (cs : List Chunk), (∀ c ∈ cs, c.downloaded = 0) →
      ∀ c ∈ distribute 0 cs, c.downloaded = 0 := by
  intro cs
  induction cs with
  | nil => intro _ c hc; simp [distribute] at hc
  | cons c cs ih =>
    intro h x hx
    have htail : ∀ y ∈ cs, y.downloaded = 0 := fun y hy => h y (by simp [hy])
    by_cases h1 : c.size ≤ 0
    · simp only [distribute, if_pos h1, Nat.zero_sub] at hx
      rcases List.mem_cons.mp hx with hx | hx
      · subst hx
        show c.size = 0
        omega
      · exact ih htail x hx
    · simp only [distribute, if_neg h1, if_neg (by omega : ¬ 0 < 0)] at hx
      exact h x hx

/-- The empty list has prefix shape at any index. -/
theorem prefixShapeAt_nil (k : Nat) : prefixShapeAt [] k := by
  intro i h
  simp at h

/-- A complete head chunk shifts the prefix index by one. -/
theorem prefixShapeAt_cons_complete (c : Chunk) (cs : List Chunk) (k : Nat)
    (hc : c.is_complete = true) (h : prefixShapeAt cs k) :
    prefixShapeAt (c :: cs) (k + 1) := by
  intro i hi
  cases i with
  | zero =>
    refine ⟨fun _ => hc, fun hik => ?_, fun hik => ?_⟩ <;> omega
  | succ j =>
    have hj : j < cs.length := by simpa using hi
    obtain ⟨h1, h2, h3⟩ := h j hj
    exact ⟨fun hlt => h1 (by omega), fun heq => h2 (by omega),
      fun hgt => h3 (by omega)⟩

/-- A head chunk filled at most to its size followed by all-zero chunks
has prefix shape at index zero. -/
theorem prefixShapeAt_cons_zero (c : Chunk) (cs : List Chunk)
    (hc : c.downloaded ≤ c.size) (h : ∀ x ∈ cs, x.downloaded = 0) :
    prefixShapeAt (c :: cs) 0 := by
  intro i hi
  cases i with
  | zero => exact ⟨fun hlt => by omega, fun _ => hc, fun hgt => by omega⟩
  | succ j =>
    have hj : j < cs.length := by simpa using hi
    refine ⟨fun hlt => by omega, fun heq => by omega, fun _ => ?_⟩
    exact h (cs.get ⟨j, hj⟩) (List.get_mem cs j hj)

/-- An all-complete chunk list has prefix shape at its length. -/
theorem prefixShapeAt_all_complete (cs : List Chunk)
    (h : ∀ x ∈ cs, x.is_complete = true) : prefixShapeAt cs cs.length := by
  intro i hi
  refine ⟨fun _ => h (cs.get ⟨i, hi⟩) (List.get_mem cs i hi),
    fun heq => by omega, fun hgt => by omega⟩

/-- Distributing over an all-zero chunk list yields a prefix shape. -/
theorem distribute_shape :
    ∀ (cs : List Chunk) (r : Nat), (∀ c ∈ cs, c.downloaded = 0) →
      ∃ k, k ≤ (distribute r cs).length ∧ prefixShapeAt (distribute r cs) k := by
  intro cs
  induction cs with
  | nil =>
    intro r _
    exact ⟨0, by simp [distribute], prefixShapeAt_nil 0⟩
  | cons c cs ih =>
    intro r h
    have hc0 : c.downloaded = 0 := h c (by simp)
    have htail : ∀ x ∈ cs, x.downloaded = 0 := fun x hx => h x (by simp [hx])
    by_cases h1 : c.size ≤ r
    · obtain ⟨k, hk, hshape⟩ := ih (r - c.size) htail
      refine ⟨k + 1, ?_, ?_⟩
      · simp only [distribute, if_pos h1, List.length_cons]
        omega
      · simp only [distribute, if_pos h1]
        refine prefixShapeAt_cons_complete _ _ k ?_ hshape
        show decide (({ c with downloaded := c.size } : Chunk).size ≤ c.size) = true
        simp [Chunk.size]
    · by_cases h2 : 0 < r
      · refine ⟨0, by simp, ?_⟩
        simp only [distribute, if_neg h1, if_pos h2]
        refine prefixShapeAt_cons_zero _ _ ?_ ?_
        · show r ≤ ({ c with downloaded := r } : Chunk).size
          have : ({ c with downloaded := r } : Chunk).size = c.size := rfl
          omega
        · exact distribute_zero_all_zero cs htail
      · refine ⟨0, by simp, ?_⟩
        simp only [distribute, if_neg h1, if_neg h2]
        exact prefixShapeAt_cons_zero _ _ (by omega) htail

/-- Every Range request the retry loop issues carries the same interval,
computed once from the chunk it was given. -/
theorem retryGo_requests (cfg : ChunkConfig) (c : Chunk)
    (env : Nat → AttemptSpec) :
    ∀ fuel attempt p, p ∈ (retryGo cfg c env attempt fuel).requests →
      p = (c.resume_position, c.endPos) := by
  intro fuel
  induction fuel with
  | zero =>
    intro attempt p hp
    simp [retryGo] at hp
  | succ f ih =>
    intro attempt p hp
    cases hdc : download_chunk c (env attempt) with
    | ok b =>
      simp only [retryGo, hdc] at hp
      by_cases hcc : c.is_complete
      · simp [hcc] at hp
      · simp [hcc, chunkRequest] at hp
        exact hp
    | error e =>
      simp only [retryGo, hdc] at hp
      by_cases hstop : cfg.max_retries < attempt + 1
      · rw [if_pos hstop] at hp
        by_cases hcc : c.is_complete
        · simp [hcc] at hp
        · simp [hcc, chunkRequest] at hp
          exact hp
      · rw [if_neg hstop] at hp
        have hp2 : p ∈ (if c.is_complete then [] else [chunkRequest c]) ++
            (retryGo cfg c env (attempt + 1) f).requests := hp
        rcases List.mem_append.mp hp2 with hp3 | hp3
        · by_cases hcc : c.is_complete
          · simp [hcc] at hp3
          · simp [hcc, chunkRequest] at hp3
            exact hp3
        · exact ih (attempt + 1) p hp3

/-- The delay recorded before the j-th retry after the current attempt
is exactly the backoff formula at the incremented attempt counter. -/
theorem retryGo_delays (cfg : ChunkConfig) (c : Chunk)
    (env : Nat → AttemptSpec) :
    ∀ fuel attempt i d, (retryGo cfg c env attempt fuel).delays.get? i = some d →
      d = delayFor cfg (attempt + i + 1) := by
  intro fuel
  induction fuel with
  | zero =>
    intro attempt i d hd
    simp [retryGo] at hd
  | succ f ih =>
    intro attempt i d hd
    cases hdc : download_chunk c (env attempt) with
    | ok b =>
      simp only [retryGo, hdc] at hd
      simp at hd
    | error e =>
      simp only [retryGo, hdc] at hd
      by_cases hstop : cfg.max_retries < attempt + 1
      · rw [if_pos hstop] at hd
        simp at hd
      · rw [if_neg hstop] at hd
        have hd2 : (delayFor cfg (attempt + 1) ::
            (retryGo cfg c env (attempt + 1) f).delays).get? i = some d := hd
        cases i with
        | zero =>
          simp at hd2
          exact hd2.symm
        | succ j =>
          simp only [List.get?_cons_succ] at hd2
          have := ih (attempt + 1) j d hd2
          rw [this]
          congr 1
          omega

/-- An all-zero chunk list has prefix shape at index zero. -/
theorem prefixShapeAt_of_all_zero (cs : List Chunk)
    (h : ∀ x ∈ cs, x.downloaded = 0) : prefixShapeAt cs 0 := by
  cases cs with
  | nil => exact prefixShapeAt_nil 0
  | cons c l =>
    refine prefixShapeAt_cons_zero c l ?_ (fun x hx => h x (by simp [hx]))
    have := h c (by simp)
    omega

/-- Claim C3, counterexample: with min_chunk_size = 1 <= totalSize = 1
and chunkCount = 2 in [1, 255], the partition does not return a RangeSet
at all: the quotient q = 1 / 2 = 0 makes the first chunk computation
start + q - 1 underflow, so calculate_chunks panics (modelled none). -/
theorem calculate_chunks_underflow_refutes_C3 :
    calculate_chunks ⟨2, 1, 3, 1000, true⟩ 1 = none := by
  rfl

/-- Claim C3 (amended): for minChunkSize <= totalSize < 2 ^ 64 and
chunkCount in [1, 255] with the extra condition chunkCount <= totalSize,
calculate_chunks returns a RangeSet whose first range starts at 0, whose
last range ends at totalSize - 1, whose adjacent ranges are contiguous,
and whose sizes sum to totalSize. -/
theorem calculate_chunks_partition_invariants (cfg : ChunkConfig) (total : Nat)
    (hmin : cfg.min_chunk_size ≤ total) (hone : 1 ≤ cfg.chunk_count)
    (h255 : cfg.chunk_count ≤ 255) (hcnt : cfg.chunk_count ≤ total)
    (h64 : total < 2 ^ 64) :
    ∃ cs, calculate_chunks cfg total = some cs ∧ cs ≠ [] ∧
      (∀ h0 : 0 < cs.length, (cs.get ⟨0, h0⟩).start = 0) ∧
      (∀ hne : cs ≠ [], (cs.getLast hne).endPos = total - 1) ∧
      (∀ i (hi : i + 1 < cs.length),
        (cs.get ⟨i, by omega⟩).endPos + 1 = (cs.get ⟨i + 1, hi⟩).start) ∧
      (cs.map Chunk.size).sum = total := by
  obtain ⟨cs, heq, hchain⟩ := calculate_chunks_intro cfg total hmin hone hcnt h64
  refine ⟨cs, heq, ?_, ?_, ?_, ?_, ?_⟩
  · intro hnil
    subst hnil
    simp only [chunkChain] at hchain
    omega
  · intro h0
    cases cs with
    | nil => simp at h0
    | cons a l => exact hchain.1
  · intro hne
    exact chunkChain_getLast total cs 0 hchain hne
  · exact chunkChain_adjacent total cs 0 hchain
  · have := (chunkChain_sum total cs 0 hchain).1
    omega

/-- Witness for the amended C3 at the concrete input of the repo test:
four chunks over 1000 bytes. -/
theorem calculate_chunks_partition_invariants_witness :
    ∃ cs, calculate_chunks cfgFour 1000 = some cs ∧ cs ≠ [] ∧
      (∀ h0 : 0 < cs.length, (cs.get ⟨0, h0⟩).start = 0) ∧
      (∀ hne : cs ≠ [], (cs.getLast hne).endPos = 1000 - 1) ∧
      (∀ i (hi : i + 1 < cs.length),
        (cs.get ⟨i, by omega⟩).endPos + 1 = (cs.get ⟨i + 1, hi⟩).start) ∧
      (cs.map Chunk.size).sum = 1000 :=
  calculate_chunks_partition_invariants cfgFour 1000 (by decide) (by decide)
    (by decide) (by decide) (by decide)

/-- Claim C4, counterexample: for chunkCount = 0 with
min_chunk_size = 1 <= totalSize = 1, calculate_chunks does not return a
single range: the division file_size / chunk_count divides by zero, so
the call panics (modelled none). -/
theorem calculate_chunks_div_zero_refutes_C4 :
    calculate_chunks ⟨0, 1, 3, 1000, true⟩ 1 = none := by
  rfl

/-- Claim C4 (amended): for totalSize >= 1 (and inside u64),
calculate_chunks is total exactly on the claimed inputs that avoid the
two unguarded arithmetic failures: a small file gives one range for any
chunkCount, chunkCount = 1 gives one range, and 1 <= chunkCount <=
totalSize succeeds; but chunkCount = 0 with minChunkSize <= totalSize
divides by zero, and 2 <= chunkCount with minChunkSize <= totalSize <
chunkCount underflows, instead of collapsing to a single range. -/
theorem calculate_chunks_totality (cfg : ChunkConfig) (total : Nat)
    (hone : 1 ≤ total) (h64 : total < 2 ^ 64) :
    (total < cfg.min_chunk_size →
      calculate_chunks cfg total = some [⟨0, 0, total - 1, 0⟩]) ∧
    (cfg.min_chunk_size ≤ total → cfg.chunk_count = 0 →
      calculate_chunks cfg total = none) ∧
    (cfg.min_chunk_size ≤ total → cfg.chunk_count = 1 →
      calculate_chunks cfg total = some [⟨0, 0, total - 1, 0⟩]) ∧
    (cfg.min_chunk_size ≤ total → 2 ≤ cfg.chunk_count →
      total < cfg.chunk_count → calculate_chunks cfg total = none) ∧
    (cfg.min_chunk_size ≤ total → 1 ≤ cfg.chunk_count →
      cfg.chunk_count ≤ total → (calculate_chunks cfg total).isSome = true) := by
  refine ⟨?_, ?_, ?_, ?_, ?_⟩
  · intro hsmall
    rw [calculate_chunks, if_pos hsmall, checkedSub_some total 1 hone,
      Option.map_some']
  · intro hmin hn0
    rw [calculate_chunks, if_neg (by omega), hn0]
    simp [checkedDiv]
  · intro hmin hn1
    rw [calculate_chunks, if_neg (by omega), hn1]
    rw [show checkedDiv total 1 = some total by simp [checkedDiv]]
    rw [Option.some_bind]
    simp only [chunkLoop]
    rw [if_pos (by trivial), checkedSub_some total 1 hone]
    simp
  · intro hmin h2 hlt
    rw [calculate_chunks, if_neg (by omega)]
    rw [show checkedDiv total cfg.chunk_count = some 0 by
      simp [checkedDiv]
      constructor
      · omega
      · exact Nat.div_eq_of_lt hlt]
    rw [Option.some_bind]
    obtain ⟨m, hm⟩ : ∃ m, cfg.chunk_count = m + 2 := ⟨cfg.chunk_count - 2, by omega⟩
    rw [hm]
    simp only [chunkLoop]
    rw [if_neg (by omega)]
    rw [checkedAdd_some 0 0 (by decide)]
    simp [checkedSub]
  · intro hmin hn1 hcnt
    obtain ⟨cs, heq, _⟩ := calculate_chunks_intro cfg total hmin hn1 hcnt h64
    rw [heq]
    rfl

/-- Witness for the amended C4: the default configuration on a small
1000-byte file yields the single range [0, 999]. -/
theorem calculate_chunks_totality_witness :
    calculate_chunks cfgDefault 1000 = some [⟨0, 0, 1000 - 1, 0⟩] :=
  (calculate_chunks_totality cfgDefault 1000 (by decide) (by decide)).1 (by decide)

/-- Claim C5: after detect_resume scans an existing file of length len
against a u64 totalSize, the downloaded counters of the returned ranges
sum to min(len, totalSize); when len >= totalSize every range is marked
fully downloaded. -/
theorem detect_resume_downloaded_sum (cfg : ChunkConfig) (len total : Nat)
    (cs : List Chunk) (h64 : total < 2 ^ 64)
    (h : detect_resume cfg (Except.ok len) total = some (Except.ok cs)) :
    (cs.map Chunk.downloaded).sum = min len total ∧
    (total ≤ len → ∀ c ∈ cs, c.downloaded = c.size) := by
  rw [detect_resume, Option.map_eq_some'] at h
  obtain ⟨chunks, hch, hcs⟩ := h
  have hsum := calculate_chunks_sum cfg total chunks h64 hch
  have hzero := calculate_chunks_all_zero cfg total chunks hch
  dsimp only at hcs
  by_cases hfull : total ≤ len
  · rw [if_pos hfull] at hcs
    have hcs2 : chunks.map (fun c => { c with downloaded := c.size }) = cs := by
      injection hcs
    subst hcs2
    constructor
    · have hmm : (chunks.map (fun c => { c with downloaded := c.size })).map
          Chunk.downloaded = chunks.map Chunk.size := by
        rw [List.map_map]
        rfl
      rw [hmm, hsum]
      omega
    · intro _ c hc
      obtain ⟨y, _, hy⟩ := List.mem_map.mp hc
      rw [← hy]
      rfl
  · rw [if_neg hfull] at hcs
    have hcs2 : distribute len chunks = cs := by
      injection hcs
    subst hcs2
    refine ⟨?_, fun habs => absurd habs hfull⟩
    rw [distribute_sum chunks len hzero, hsum]

/-- Witness for C5: resuming a fully written 1000-byte file against a
1200-byte metadata length marks min 1200 1000 = 1000 bytes downloaded. -/
theorem detect_resume_downloaded_sum_witness :
    (csFull1000.map Chunk.downloaded).sum = min 1200 1000 :=
  (detect_resume_downloaded_sum cfgFour 1200 1000 csFull1000 (by decide) rfl).1

/-- Claim C6: every chunk list detect_resume returns has prefix shape:
for some index k, all earlier ranges are complete, range k is at most
partially filled, and all later ranges have downloaded = 0. -/
theorem detect_resume_prefix_shape (cfg : ChunkConfig)
    (md : Except IoErrorKind Nat) (total : Nat) (cs : List Chunk)
    (h : detect_resume cfg md total = some (Except.ok cs)) :
    ∃ k, k ≤ cs.length ∧ prefixShapeAt cs k := by
  rw [detect_resume, Option.map_eq_some'] at h
  obtain ⟨chunks, hch, hcs⟩ := h
  have hzero := calculate_chunks_all_zero cfg total chunks hch
  cases md with
  | error e =>
    dsimp only at hcs
    have hcs2 : chunks = cs := by injection hcs
    subst hcs2
    exact ⟨0, by omega, prefixShapeAt_of_all_zero chunks hzero⟩
  | ok len =>
    dsimp only at hcs
    by_cases hfull : total ≤ len
    · rw [if_pos hfull] at hcs
      have hcs2 : chunks.map (fun c => { c with downloaded := c.size }) = cs := by
        injection hcs
      subst hcs2
      refine ⟨_, le_refl _, prefixShapeAt_all_complete _ ?_⟩
      intro x hx
      obtain ⟨y, _, hy⟩ := List.mem_map.mp hx
      rw [← hy]
      show decide (({ y with downloaded := y.size } : Chunk).size ≤ y.size) = true
      simp [Chunk.size]
    · rw [if_neg hfull] at hcs
      have hcs2 : distribute len chunks = cs := by
        injection hcs
      subst hcs2
      exact distribute_shape chunks len hzero

/-- Witness for C6: the four-chunk resume of a 300-byte partial file. -/
theorem detect_resume_prefix_shape_witness :
    ∃ k, k ≤ csPart1000.length ∧ prefixShapeAt csPart1000 k :=
  detect_resume_prefix_shape cfgFour (Except.ok 300) 1000 csPart1000 rfl

/-- Claim C10: detect_resume never produces an error value; on any
metadata error kind (not only file-not-found) it returns the fresh
partition, whose chunks all have downloaded = 0. -/
theorem detect_resume_no_error (cfg : ChunkConfig) (total : Nat)
    (e : IoErrorKind) :
    (∀ md r, detect_resume cfg md total = some r → ∃ cs, r = Except.ok cs) ∧
    (detect_resume cfg (Except.error e) total =
      (calculate_chunks cfg total).map Except.ok) ∧
    (∀ cs, detect_resume cfg (Except.error e) total = some (Except.ok cs) →
      ∀ c ∈ cs, c.downloaded = 0) := by
  refine ⟨?_, ?_, ?_⟩
  · intro md r h
    rw [detect_resume, Option.map_eq_some'] at h
    obtain ⟨chunks, _, hr⟩ := h
    cases md with
    | error e2 => exact ⟨chunks, hr.symm⟩
    | ok len =>
      dsimp only at hr
      by_cases hfull : total ≤ len
      · rw [if_pos hfull] at hr
        exact ⟨_, hr.symm⟩
      · rw [if_neg hfull] at hr
        exact ⟨_, hr.symm⟩
  · rfl
  · intro cs h c hc
    rw [detect_resume, Option.map_eq_some'] at h
    obtain ⟨chunks, hch, hcs⟩ := h
    dsimp only at hcs
    have hcs2 : chunks = cs := by injection hcs
    subst hcs2
    exact calculate_chunks_all_zero cfg total chunks hch c hc

/-- Witness for C10: a permission-denied metadata error on the
four-chunk 1000-byte download yields the fresh all-zero partition. -/
theorem detect_resume_no_error_witness :
    ∃ cs, (Except.ok csFresh1000 : Except DownloadError (List Chunk)) =
      Except.ok cs :=
  (detect_resume_no_error cfgFour 1000 IoErrorKind.permissionDenied).1
    (Except.error IoErrorKind.permissionDenied) (Except.ok csFresh1000) rfl

/-- Claim C1, counterexample: the first attempt on chunk [0, 99] writes
a 50-byte block at offset 0 and then fails mid-stream, yet the second
attempt requests bytes=0-99 again, not bytes=50-99 as the claim states:
the downloaded counter is a field of the by-value chunk and is never
advanced by the streaming loop. -/
theorem retry_refetches_written_bytes :
    chunkWrites ⟨0, 0, 99, 0⟩ (envRetry 0) = [(0, 50)] ∧
    (download_chunk_with_retry cfgDefault ⟨0, 0, 99, 0⟩ envRetry).requests =
      [(0, 99), (0, 99)] ∧
    (download_chunk_with_retry cfgDefault ⟨0, 0, 99, 0⟩ envRetry).requests.get? 1 ≠
      some (50, 99) :=
  ⟨rfl, rfl, by decide⟩

/-- Claim C1 (amended): every attempt of download_chunk_with_retry
issues the same Range request, computed from the chunk value the driver
was given (start + downloaded at entry, end); bytes written by a failed
attempt are not reflected in later requests and are fetched again. -/
theorem retry_requests_from_entry_chunk (cfg : ChunkConfig) (c : Chunk)
    (env : Nat → AttemptSpec) (p : Nat × Nat)
    (hp : p ∈ (download_chunk_with_retry cfg c env).requests) :
    p = (c.resume_position, c.endPos) :=
  retryGo_requests cfg c env (cfg.max_retries + 1) 0 p hp

/-- Witness for the amended C1 at the concrete retry run of the
counterexample environment. -/
theorem retry_requests_from_entry_chunk_witness :
    ((0, 99) : Nat × Nat) =
      ((⟨0, 0, 99, 0⟩ : Chunk).resume_position, (⟨0, 0, 99, 0⟩ : Chunk).endPos) :=
  retry_requests_from_entry_chunk cfgDefault ⟨0, 0, 99, 0⟩ envRetry (0, 99)
    (by decide)

/-- Claim C2: evaluation at the failing input.  For the resuming chunk
[0, 99] with downloaded = 50 (resume position 50), a 200 response
carrying the full 100-byte body is accepted: download_chunk returns
Ok 100 and writes the whole body at offset 50, instead of failing with
UnexpectedFullResponse (a kind the implemented error enum lacks). -/
theorem download_chunk_200_writes_at_resume :
    (⟨0, 0, 99, 50⟩ : Chunk).resume_position = 50 ∧
    download_chunk ⟨0, 0, 99, 50⟩ ⟨200, [100], none⟩ = Except.ok 100 ∧
    chunkWrites ⟨0, 0, 99, 50⟩ ⟨200, [100], none⟩ = [(50, 100)] ∧
    errorKindOf (download_chunk ⟨0, 0, 99, 50⟩ ⟨200, [100], none⟩) = none :=
  ⟨rfl, rfl, rfl, rfl⟩

/-- Claim C7, counterexample: a successful probe response with no
content length fails with the InvalidUrl kind, not the
MissingContentLength kind the claim names (the implemented error enum
has no such variant). -/
theorem probe_missing_length_not_missing_kind :
    errorKindOf (get_file_info ⟨200, none, none⟩) =
      some SpecErrorKind.invalidUrl ∧
    SpecErrorKind.invalidUrl ≠ SpecErrorKind.missingContentLength :=
  ⟨rfl, by decide⟩

/-- Claim C7 (amended): a probe whose response is 2xx but carries no
content length fails with InvalidUrl "No content length". -/
theorem probe_missing_length_invalid_url (r : HeadResponse)
    (hs : isSuccessStatus r.status = true) (hl : r.contentLength = none) :
    get_file_info r =
      Except.error (DownloadError.InvalidUrl ("No content length")) := by
  simp [get_file_info, hs, hl]

/-- Witness for the amended C7 at a 204 probe response without length. -/
theorem probe_missing_length_invalid_url_witness :
    get_file_info ⟨204, none, some ("bytes")⟩ =
      Except.error (DownloadError.InvalidUrl ("No content length")) :=
  probe_missing_length_invalid_url ⟨204, none, some ("bytes")⟩ (by decide) rfl

/-- Claim C8, counterexample: status 204 is neither 200 nor 206, yet the
ranged GET of an incomplete chunk succeeds with Ok 0 instead of
returning the HttpStatus error kind with code 204: the source accepts
every 2xx status. -/
theorem download_chunk_accepts_204 :
    download_chunk ⟨0, 0, 99, 0⟩ ⟨204, [], none⟩ = Except.ok 0 ∧
    errorKindOf (download_chunk ⟨0, 0, 99, 0⟩ ⟨204, [], none⟩) ≠
      some SpecErrorKind.httpStatus :=
  ⟨rfl, by decide⟩

/-- Claim C8 (amended): for an incomplete chunk, download_chunk returns
HttpError with the raw status code exactly when the status is not 2xx;
every 2xx status (206 included) is accepted. -/
theorem download_chunk_http_error_iff (c : Chunk) (a : AttemptSpec)
    (hc : c.is_complete = false) :
    (download_chunk c a = Except.error (DownloadError.HttpError a.status)) ↔
      isSuccessStatus a.status = false := by
  rw [download_chunk, hc]
  simp only [Bool.false_eq_true, if_false]
  constructor
  · intro h
    by_contra habs
    have hsucc : isSuccessStatus a.status = true := by
      cases hx : isSuccessStatus a.status
      · exact absurd hx habs
      · rfl
    have hacc : statusAccepted a.status = true := by
      simp [statusAccepted, hsucc]
    rw [hacc] at h
    simp only [Bool.true_eq_false, if_false] at h
    cases hse : a.streamErr with
    | some m =>
      rw [hse] at h
      simp at h
    | none =>
      rw [hse] at h
      simp at h
  · intro h
    have hs206 : a.status ≠ 206 := by
      intro h206
      rw [h206] at h
      simp [isSuccessStatus] at h
    have hacc : statusAccepted a.status = false := by
      simp [statusAccepted, h, hs206]
    rw [hacc]
    simp

/-- Witness for the amended C8: a 404 on an incomplete chunk yields
HttpError 404. -/
theorem download_chunk_http_error_iff_witness :
    download_chunk ⟨0, 0, 99, 0⟩ ⟨404, [], none⟩ =
      Except.error (DownloadError.HttpError 404) :=
  (download_chunk_http_error_iff ⟨0, 0, 99, 0⟩ ⟨404, [], none⟩ rfl).mpr rfl

/-- Claim C9, counterexample: with initial backoff d = 2 ^ 63 ms and
exponential mode, the delay before the second retry is not
d * 2 ^ (2 - 1): that product leaves u64, so the delay computation
panics (modelled none) rather than equalling the claimed value. -/
theorem retry_delay_overflow_refutes_C9 :
    delayFor ⟨8, 1048576, 20, 9223372036854775808, true⟩ 2 ≠
      some (9223372036854775808 * 2 ^ (2 - 1)) := by
  decide

/-- Claim C9 (amended): for k >= 1, the delay computed before the k-th
retry is d * 2 ^ (k - 1) in exponential mode whenever k <= 20 and that
product stays inside u64, and is d in constant mode for every k; every
delay the retry driver actually records for its k-th retry equals this
delayFor value. -/
theorem retry_backoff_delay (cfg : ChunkConfig) (k : Nat) (hk : 1 ≤ k) :
    (cfg.exponential_backoff = true → k ≤ 20 →
      cfg.retry_delay_ms * 2 ^ (k - 1) < 2 ^ 64 →
      delayFor cfg k = some (cfg.retry_delay_ms * 2 ^ (k - 1))) ∧
    (cfg.exponential_backoff = false → delayFor cfg k = some cfg.retry_delay_ms) ∧
    (∀ c env d, (download_chunk_with_retry cfg c env).delays.get? (k - 1) = some d →
      d = delayFor cfg k) := by
  refine ⟨?_, ?_, ?_⟩
  · intro hexp hk20 hov
    rw [delayFor, hexp]
    simp only [if_true]
    have hpow : checkedPow2 (k - 1) = some (2 ^ (k - 1)) := by
      rw [checkedPow2, if_pos]
      have h1 : (2 : Nat) ^ (k - 1) ≤ 2 ^ 19 :=
        Nat.pow_le_pow_right (by omega) (by omega)
      have h2 : (2 : Nat) ^ 19 < 2 ^ 64 := by decide
      omega
    rw [hpow, Option.some_bind, checkedMul, if_pos hov]
  · intro hexp
    rw [delayFor, hexp]
    simp
  · intro c env d hd
    have h2 := retryGo_delays cfg c env (cfg.max_retries + 1) 0 (k - 1) d hd
    rw [h2]
    congr 1
    omega

/-- Witness for the amended C9: the default configuration sleeps
1000 * 2 ms before the second retry. -/
theorem retry_backoff_delay_witness :
    delayFor cfgDefault 2 = some (cfgDefault.retry_delay_ms * 2 ^ (2 - 1)) :=
  (retry_backoff_delay cfgDefault 2 (by decide)).1 rfl (by decide) (by decide)
